import Mathlib

set_option maxRecDepth 10000

/-!
Verification development for the parlaylib parallel-primitives layer.

The definitions below are a shallow embedding of the functions in
include/parlay/primitives.h (and, where that header delegates to internal
engine headers that are not part of the sources, of the engines as the
design document describes them; those definitions carry a doc comment
beginning with the words Modelled from the spec).  Machine integers of
type size_t are embedded as Nat with wraparound made explicit where the
source can underflow.  Out-of-bounds element accesses are embedded
fallibly via Option.
-/

namespace Parlay

/- ------------------------------------------------------------------
   internal::find_if_index (primitives.h lines 454-474).

   The source scans the first min(granularity, n) indices sequentially,
   then processes geometrically growing blocks; inside a block every
   index j with p j performs write_min on a shared atomic initialised
   to n, and after each block the atomic is consulted.  The while loop
   is embedded with explicit fuel; fuel n + 1 is sufficient because
   start grows by at least blockSize >= 1 each iteration.
   ------------------------------------------------------------------ -/

/-- One parallel block of internal::find_if_index: every index j of the
block with p j performs write_min(result, j); the fold order is the
order in which the workers happen to commit their writes. -/
def writeMinBlock (p : Nat → Bool) (cur : Nat) (js : List Nat) : Nat :=
  js.foldl (fun r j => if p j then min r j else r) cur

/-- The while loop of internal::find_if_index: doubling blocks from
start, each block scanned by writeMinBlock in ascending index order,
returning as soon as the shared atomic drops below n. -/
def findLoop (n : Nat) (p : Nat → Bool) : Nat → Nat → Nat → Nat
  | 0, _, _ => n
  | fuel + 1, start, bs =>
    if start < n then
      let e := min n (start + bs)
      let res := writeMinBlock p n (List.range' start (e - start))
      if res < n then res else findLoop n p fuel (start + bs) (bs * 2)
    else n

/-- internal::find_if_index(n, p, granularity): sequential scan of the
first min(granularity, n) indices, then the doubling block loop. -/
def find_if_index (n : Nat) (p : Nat → Bool) (granularity : Nat) : Nat :=
  match (List.range (min granularity n)).find? p with
  | some i => i
  | none =>
    if min granularity n = n then n
    else findLoop n p (n + 1) granularity (2 * granularity)

/-- The while loop of internal::find_if_index where each parallel block
executes its writes in an arbitrary worker-determined order, given by
sched start e for the block of indices in the interval from start to e. -/
def findLoopSched (n : Nat) (p : Nat → Bool) (sched : Nat → Nat → List Nat) :
    Nat → Nat → Nat → Nat
  | 0, _, _ => n
  | fuel + 1, start, bs =>
    if start < n then
      let e := min n (start + bs)
      let res := writeMinBlock p n (sched start e)
      if res < n then res else findLoopSched n p sched fuel (start + bs) (bs * 2)
    else n

/-- internal::find_if_index executed under an arbitrary schedule: the
sequential prefix is unchanged (it runs on the calling worker), while
each parallel block commits its write_min calls in the order sched. -/
def findIfIndexSched (n : Nat) (p : Nat → Bool) (granularity : Nat)
    (sched : Nat → Nat → List Nat) : Nat :=
  match (List.range (min granularity n)).find? p with
  | some i => i
  | none =>
    if min granularity n = n then n
    else findLoopSched n p sched (n + 1) granularity (2 * granularity)

/- ------------------------------------------------------------------
   Reduce engine.
   ------------------------------------------------------------------ -/

/-- Splits a list into granularity-sized chunks; the first argument is
fuel bounding the number of chunks (each chunk consumes at least one
element, so fuel equal to the list length always suffices; a zero
granularity is clamped to one so that the definition is total). -/
def chunksGo (g : Nat) : Nat → List α → List (List α)
  | _, [] => []
  | 0, l => [l]
  | fuel + 1, x :: xs =>
    (x :: xs).take (max g 1) :: chunksGo g fuel ((x :: xs).drop (max g 1))

/-- Splits a list into granularity-sized chunks. -/
def chunksOf (g : Nat) (l : List α) : List (List α) :=
  chunksGo g l.length l

/-- Modelled from the spec: the balanced parallel reduction tree of
internal::reduce (internal/sequence_ops.h, not under src/), described in
section 4.2 of the design document: the per-chunk partial results are
combined by recursive halving, an empty list of partials giving the
identity.  The first argument is fuel bounding the recursion depth
(the list length always suffices, since halving a list of length at
least two shortens it). -/
def combineGo (f : α → α → α) (idv : α) : Nat → List α → α
  | _, [] => idv
  | _, [x] => x
  | 0, l => l.foldl f idv
  | fuel + 1, l =>
    f (combineGo f idv fuel (l.take (l.length / 2)))
      (combineGo f idv fuel (l.drop (l.length / 2)))

/-- The balanced combining tree over the list of per-chunk partials. -/
def combineTree (f : α → α → α) (idv : α) (l : List α) : α :=
  combineGo f idv l.length l

/-- Modelled from the spec: internal::reduce (internal/sequence_ops.h,
not under src/), section 4.2 of the design document: partition into
granularity-sized chunks, fold each chunk sequentially from the
identity, combine the per-chunk partials with a balanced tree. -/
def reduceInternal (f : α → α → α) (idv : α) (g : Nat) (l : List α) : α :=
  combineTree f idv ((chunksOf g l).map (fun b => b.foldl f idv))

/-- parlay::reduce(r, m) (primitives.h lines 89-96); the granularity
heuristic constant is fixed at 1000. -/
def reduce (f : α → α → α) (idv : α) (l : List α) : α :=
  reduceInternal f idv 1000 l

/- ------------------------------------------------------------------
   Scan engine.
   ------------------------------------------------------------------ -/

/-- Sequential exclusive scan from an accumulator: returns the list of
prefix folds (the accumulator emitted before consuming each element)
together with the fold of the whole list. -/
def seqScanExcl (f : α → α → α) : α → List α → List α × α
  | a, [] => ([], a)
  | a, x :: xs =>
    let r := seqScanExcl f (f a x) xs
    (a :: r.1, r.2)

/-- Sequential inclusive scan from an accumulator: the accumulator is
emitted after consuming each element. -/
def seqScanIncl (f : α → α → α) : α → List α → List α
  | _, [] => []
  | a, x :: xs => f a x :: seqScanIncl f (f a x) xs

/-- Modelled from the spec: the exclusive scan of internal::scan
(internal/sequence_ops.h, not under src/), section 4.3 of the design
document, three phases: fold each granularity-sized block, exclusive
scan of the block sums to get each block offset, re-scan each block
from its offset. -/
def scanBlocked (f : α → α → α) (idv : α) (g : Nat) (l : List α) :
    List α × α :=
  let bs := chunksOf g l
  let sums := bs.map (fun b => b.foldl f idv)
  let po := seqScanExcl f idv sums
  (((bs.zip po.1).map (fun q => (seqScanExcl f q.2 q.1).1)).flatten, po.2)

/-- Modelled from the spec: the inclusive scan of internal::scan
(fl_scan_inclusive), same three phases with an inclusive re-scan of
each block from its offset. -/
def scanInclBlocked (f : α → α → α) (idv : α) (g : Nat) (l : List α) :
    List α :=
  let bs := chunksOf g l
  let sums := bs.map (fun b => b.foldl f idv)
  let po := seqScanExcl f idv sums
  ((bs.zip po.1).map (fun q => seqScanIncl f q.2 q.1)).flatten

/-- parlay::scan(r, m) (primitives.h lines 154-162). -/
def scan (f : α → α → α) (idv : α) (l : List α) : List α × α :=
  scanBlocked f idv 1000 l

/-- parlay::scan_inclusive(r, m) (primitives.h lines 164-173). -/
def scan_inclusive (f : α → α → α) (idv : α) (l : List α) : List α :=
  scanInclBlocked f idv 1000 l

/- ------------------------------------------------------------------
   Sorting (primitives.h lines 311-376).
   ------------------------------------------------------------------ -/

/-- The two comparison-sort engines named in the sources: the sample
sort of internal/sample_sort.h and the merge sort of
internal/merge_sort.h. -/
inductive SortEngine where
  | sampleSortEngine : SortEngine
  | mergeSortEngine : SortEngine
deriving DecidableEq

/-- Which engine an entry point of primitives.h calls, and the value of
the stable flag it passes. -/
structure SortDispatch where
  engine : SortEngine
  stableFlag : Bool
deriving DecidableEq

/-- parlay::sort (primitives.h lines 312-328) calls
internal::sample_sort(make_slice(in), comp) with the stable flag left
at its default false. -/
def sort_dispatch : SortDispatch := ⟨SortEngine.sampleSortEngine, false⟩

/-- parlay::stable_sort (primitives.h lines 330-344) calls
internal::sample_sort(make_slice(in), comp, true). -/
def stable_sort_dispatch : SortDispatch := ⟨SortEngine.sampleSortEngine, true⟩

/-- parlay::stable_sort_inplace (primitives.h lines 362-368) calls
internal::merge_sort_inplace(make_slice(in), comp). -/
def stable_sort_inplace_dispatch : SortDispatch :=
  ⟨SortEngine.mergeSortEngine, true⟩

/-- Modelled from the spec: the comparison-sort engine
(internal/sample_sort.h and internal/merge_sort.h, neither under src/).
Sections 4.4 and 4.6 of the design document specify a comparison sort
returning a sorted permutation, with the stable paths realised by
parallel merge sort: leaves sorted sequentially, then merged pairwise
bottom-up with a merge that takes from the left run on ties.  Embedded
as binary merge sort over the comparator, an element a preceding b
when comp(b, a) is false. -/
def sortEngine (lt : α → α → Bool) (l : List α) : List α :=
  l.mergeSort (fun a b => !lt b a)

/-- parlay::sort(in, comp) (primitives.h lines 322-328). -/
def sort (lt : α → α → Bool) (l : List α) : List α := sortEngine lt l

/-- parlay::stable_sort(in, comp) (primitives.h lines 338-344). -/
def stable_sort (lt : α → α → Bool) (l : List α) : List α := sortEngine lt l

/- ------------------------------------------------------------------
   Counting and boolean searching (primitives.h lines 446-528).
   ------------------------------------------------------------------ -/

/-- internal::count_if_index(n, p) (primitives.h lines 446-452): the
number of indices satisfying p, computed by reducing the sequence of
indicator values with the addition monoid. -/
def count_if_index (n : Nat) (p : Nat → Bool) : Nat :=
  reduce Nat.add 0 ((List.range n).map (fun i => if p i then 1 else 0))

/-- parlay::count_if(r, p) (primitives.h lines 491-497); the indices
handed to count_if_index are all below the length of r, so the
out-of-range arm of the element fetch is never taken. -/
def count_if (r : List α) (p : α → Bool) : Nat :=
  count_if_index r.length (fun i => (r[i]?.map p).getD false)

/-- parlay::any_of(r, p) (primitives.h lines 516-521): the source
returns count_if(r, p) > 1. -/
def any_of (r : List α) (p : α → Bool) : Bool :=
  decide (count_if r p > 1)

/-- parlay::all_of(r, p) (primitives.h lines 509-514). -/
def all_of (r : List α) (p : α → Bool) : Bool :=
  decide (count_if r p = r.length)

/-- parlay::none_of(r, p) (primitives.h lines 523-528). -/
def none_of (r : List α) (p : α → Bool) : Bool :=
  decide (count_if r p = 0)

/- ------------------------------------------------------------------
   Pattern search (primitives.h lines 616-636).
   ------------------------------------------------------------------ -/

/-- The predicate handed to find_if_index by parlay::search: false when
the pattern overhangs the end of the text, otherwise true when every
pattern position matches under pred. -/
def matchAt [Inhabited α] (t pat : List α) (pred : α → α → Bool) (i : Nat) :
    Bool :=
  decide (i + pat.length ≤ t.length) &&
    (List.range pat.length).all
      (fun j => pred (t.getD (i + j) default) (pat.getD j default))

/-- parlay::search(r1, r2, pred) (primitives.h lines 616-628), returning
the offset of the returned iterator from the start of r1. -/
def search [Inhabited α] (t pat : List α) (pred : α → α → Bool) : Nat :=
  find_if_index t.length (matchAt t pat pred) 1000

/-- The pattern pat occurs in the text t at position i. -/
def OccursAt (t pat : List α) (i : Nat) : Prop :=
  i + pat.length ≤ t.length ∧ ∀ j < pat.length, t[i + j]? = pat[j]?

/- ------------------------------------------------------------------
   Adjacent find with fallible element access (primitives.h 575-584).

   parlay::adjacent_find passes size(r) - 1 to find_if_index, where
   size(r) is the unsigned machine integer size_t; the subtraction
   wraps modulo 2^64.  The predicate reads the elements at i and i + 1,
   which is embedded fallibly: the value none records an out-of-bounds
   element access.
   ------------------------------------------------------------------ -/

/-- size_t subtraction of one, wrapping modulo 2^64. -/
def sizeTSubOne (sz : Nat) : Nat := (sz + 2 ^ 64 - 1) % 2 ^ 64

/-- The predicate of parlay::adjacent_find: compare the elements at i
and i + 1, or none when either access is out of bounds. -/
def adjPred (r : List α) (cmp : α → α → Bool) (i : Nat) : Option Bool :=
  match r[i]?, r[i + 1]? with
  | some a, some b => some (cmp a b)
  | _, _ => none

/-- The sequential prefix of internal::find_if_index with a fallible
predicate: none records an out-of-bounds access, some none a completed
scan without a hit, some (some i) a hit at i. -/
def chkFirst (p : Nat → Option Bool) : List Nat → Option (Option Nat)
  | [] => some none
  | j :: rest =>
    match p j with
    | none => none
    | some true => some (some j)
    | some false => chkFirst p rest

/-- One block of internal::find_if_index with a fallible predicate. -/
def chkBlock (p : Nat → Option Bool) (cur : Nat) (js : List Nat) :
    Option Nat :=
  js.foldl
    (fun r j =>
      match r, p j with
      | none, _ => none
      | _, none => none
      | some c, some true => some (min c j)
      | some c, some false => some c)
    (some cur)

/-- The block loop of internal::find_if_index with a fallible
predicate. -/
def chkLoop (n : Nat) (p : Nat → Option Bool) : Nat → Nat → Nat → Option Nat
  | 0, _, _ => some n
  | fuel + 1, start, bs =>
    if start < n then
      let e := min n (start + bs)
      match chkBlock p n (List.range' start (e - start)) with
      | none => none
      | some res =>
        if res < n then some res else chkLoop n p fuel (start + bs) (bs * 2)
    else some n

/-- internal::find_if_index with a fallible predicate: none records
that some predicate evaluation accessed an element out of bounds. -/
def findIfIndexChk (n : Nat) (p : Nat → Option Bool) (g : Nat) :
    Option Nat :=
  match chkFirst p (List.range (min g n)) with
  | none => none
  | some (some i) => some i
  | some none =>
    if min g n = n then some n else chkLoop n p (n + 1) g (2 * g)

/-- parlay::adjacent_find(r, p) (primitives.h lines 575-584): the outer
none records an out-of-bounds element access; some none is the end
iterator; some (some i) is the iterator begin(r) + i. -/
def adjacent_find (r : List α) (cmp : α → α → Bool) : Option (Option Nat) :=
  let n := sizeTSubOne r.length
  match findIfIndexChk n (adjPred r cmp) 1000 with
  | none => none
  | some idx => if idx = n then some none else some (some idx)

/- ------------------------------------------------------------------
   Lexicographic comparison (primitives.h lines 691-719).
   ------------------------------------------------------------------ -/

/-- parlay::lexicographical_compare(r1, r2, less) (primitives.h lines
691-701): find_if_index locates the first position where the elements
compare unequal under less in either order; if one exists below the
common length the elements decide, otherwise the lengths decide. -/
def lexicographical_compare [Inhabited α] (lt : α → α → Bool)
    (a b : List α) : Bool :=
  let m := min a.length b.length
  let i := find_if_index m
    (fun i => lt (a.getD i default) (b.getD i default) ||
              lt (b.getD i default) (a.getD i default)) 1000
  if i < m then lt (a.getD i default) (b.getD i default)
  else decide (a.length < b.length)

/-- The sequential while loop of operator< on sequences: advance while
the current elements below the common length compare equal; some v
means the loop stopped at a difference with verdict v, none means the
common prefix was exhausted. -/
def seqLessCore (beq lt : α → α → Bool) : List α → List α → Option Bool
  | x :: xs, y :: ys =>
    if beq x y then seqLessCore beq lt xs ys else some (lt x y)
  | _, _ => none

/-- The sequential branch of operator< (primitives.h lines 714-718). -/
def seqLess (beq lt : α → α → Bool) (a b : List α) : Bool :=
  match seqLessCore beq lt a b with
  | some v => v
  | none => decide (a.length < b.length)

/-- operator<(sequence, sequence) (primitives.h lines 710-719): the
parallel lexicographical_compare branch above size 1000, the
element-by-element loop otherwise. -/
def sequenceLess [Inhabited α] (beq lt : α → α → Bool) (a b : List α) :
    Bool :=
  if a.length > 1000 then lexicographical_compare lt a b
  else seqLess beq lt a b

/-- Strict lexicographic order of lists under a strict comparator:
shorter prefixes first, the first position where one element is
strictly below the other decides. -/
def lexLt (lt : α → α → Bool) : List α → List α → Bool
  | _, [] => false
  | [], _ :: _ => true
  | x :: xs, y :: ys => lt x y || (!lt y x && lexLt lt xs ys)

/- ==================================================================
   Lemmas about internal::find_if_index.
   ================================================================== -/

theorem writeMinBlock_range' (p : Nat → Bool) :
    ∀ (len s c : Nat),
      writeMinBlock p c (List.range' s len) =
        ((List.range' s len).find? p).elim c (fun j => min c j) := by
  intro len
  induction len with
  | zero => intro s c; rfl
  | succ k ih =>
    intro s c
    rw [List.range'_succ]
    by_cases hp : p s
    · have hstep : writeMinBlock p c (s :: List.range' (s + 1) k) =
        writeMinBlock p (min c s) (List.range' (s + 1) k) := by
        simp [writeMinBlock, hp]
      rw [hstep, ih (s + 1) (min c s)]
      have hfind : (s :: List.range' (s + 1) k).find? p = some s := by
        simp [List.find?_cons, hp]
      rw [hfind]
      cases hrest : (List.range' (s + 1) k).find? p with
      | none => rfl
      | some j =>
        have hj : j ∈ List.range' (s + 1) k := List.mem_of_find?_eq_some hrest
        have hsj : s + 1 ≤ j := by
          rcases List.mem_range'.1 hj with ⟨i, _, rfl⟩; omega
        simp only [Option.elim]
        omega
    · have hstep : writeMinBlock p c (s :: List.range' (s + 1) k) =
        writeMinBlock p c (List.range' (s + 1) k) := by
        simp [writeMinBlock, hp]
      have hfind : (s :: List.range' (s + 1) k).find? p =
          (List.range' (s + 1) k).find? p := by
        simp [List.find?_cons, hp]
      rw [hstep, ih (s + 1) c, hfind]

theorem range'_split_at (s m n : Nat) (h1 : s ≤ m) (h2 : m ≤ n) :
    List.range' s (n - s) = List.range' s (m - s) ++ List.range' m (n - m) := by
  have := List.range'_append s (m - s) (n - m) 1
  rw [show s + 1 * (m - s) = m by omega] at this
  rw [show (n - m) + (m - s) = n - s by omega] at this
  exact this.symm

theorem findLoop_eq (n : Nat) (p : Nat → Bool) :
    ∀ (fuel start bs : Nat), 0 < bs → n ≤ start + fuel →
      findLoop n p fuel start bs =
        ((List.range' start (n - start)).find? p).getD n := by
  intro fuel
  induction fuel with
  | zero =>
    intro start bs _ hle
    have h0 : n - start = 0 := by omega
    simp [findLoop, h0]
  | succ k ih =>
    intro start bs hbs hle
    by_cases hlt : start < n
    · have hse : start ≤ min n (start + bs) := by omega
      have hen : min n (start + bs) ≤ n := by omega
      have hunf : findLoop n p (k + 1) start bs =
          (if writeMinBlock p n
              (List.range' start (min n (start + bs) - start)) < n then
            writeMinBlock p n (List.range' start (min n (start + bs) - start))
          else findLoop n p k (start + bs) (bs * 2)) := by
        simp [findLoop, hlt]
      rw [hunf, writeMinBlock_range' p (min n (start + bs) - start) start n]
      rw [range'_split_at start (min n (start + bs)) n hse hen,
        List.find?_append]
      cases hblk : (List.range' start (min n (start + bs) - start)).find? p with
      | some j =>
        have hj : j ∈ List.range' start (min n (start + bs) - start) :=
          List.mem_of_find?_eq_some hblk
        have hjlt : j < n := by
          rcases List.mem_range'.1 hj with ⟨i, hi, rfl⟩; omega
        have hminj : min n j = j := by omega
        simp only [Option.elim]
        rw [if_pos (by omega : min n j < n), hminj]
        simp
      | none =>
        simp only [Option.elim]
        rw [if_neg (by omega : ¬ n < n)]
        rw [ih (start + bs) (bs * 2) (by omega) (by omega)]
        by_cases hcase : start + bs ≤ n
        · have hmin2 : min n (start + bs) = start + bs := by omega
          rw [hmin2] at hblk ⊢
          simp [hblk]
        · have hmin2 : min n (start + bs) = n := by omega
          have hz : n - (start + bs) = 0 := by omega
          rw [hmin2] at hblk ⊢
          simp [hblk, hz]
    · have h0 : n - start = 0 := by omega
      simp [findLoop, hlt, h0]

theorem find_if_index_eq (n : Nat) (p : Nat → Bool) (g : Nat) (hg : 0 < g) :
    find_if_index n p g = ((List.range n).find? p).getD n := by
  have hsplit : List.range n =
      List.range (min g n) ++ List.range' (min g n) (n - min g n) := by
    rw [List.range_eq_range', List.range_eq_range']
    have := range'_split_at 0 (min g n) n (by omega) (by omega)
    simpa using this
  unfold find_if_index
  cases hfind : (List.range (min g n)).find? p with
  | some i =>
    rw [hsplit, List.find?_append, hfind]
    rfl
  | none =>
    by_cases hmn : min g n = n
    · rw [if_pos hmn]
      rw [hsplit, List.find?_append, hfind]
      have : n - min g n = 0 := by omega
      simp [this]
    · rw [if_neg hmn]
      have hgn : min g n = g := by omega
      rw [findLoop_eq n p (n + 1) g (2 * g) (by omega) (by omega)]
      rw [hsplit, List.find?_append, hfind, hgn]
      simp

theorem range_find?_spec (p : Nat → Bool) :
    ∀ n : Nat,
      ((List.range n).find? p = none ∧ ∀ i < n, p i = false) ∨
      (∃ j, (List.range n).find? p = some j ∧ j < n ∧ p j = true ∧
        ∀ i < j, p i = false) := by
  intro n
  induction n with
  | zero => left; exact ⟨rfl, by omega⟩
  | succ k ih =>
    rcases ih with ⟨hnone, hall⟩ | ⟨j, hsome, hjk, hpj, hmin⟩
    · by_cases hp : p k
      · right
        refine ⟨k, ?_, by omega, hp, fun i hi => hall i hi⟩
        rw [List.range_succ, List.find?_append, hnone]
        simp [hp]
      · left
        constructor
        · rw [List.range_succ, List.find?_append, hnone]
          simp [hp]
        · intro i hi
          rcases Nat.lt_succ_iff_lt_or_eq.1 hi with h | h
          · exact hall i h
          · subst h; simpa using hp
    · right
      refine ⟨j, ?_, by omega, hpj, hmin⟩
      rw [List.range_succ, List.find?_append, hsome]
      rfl

/-- The first-match characterisation of internal::find_if_index: for a
positive granularity it returns the least index of [0, n) satisfying p,
and the sentinel n when none does. -/
theorem find_if_index_first (n : Nat) (p : Nat → Bool) (g : Nat)
    (hg : 0 < g) :
    (find_if_index n p g = n ∧ ∀ i < n, p i = false) ∨
    (find_if_index n p g < n ∧ p (find_if_index n p g) = true ∧
      ∀ i < find_if_index n p g, p i = false) := by
  rw [find_if_index_eq n p g hg]
  rcases range_find?_spec p n with ⟨h1, h2⟩ | ⟨j, h1, h2, h3, h4⟩
  · left
    rw [h1]
    exact ⟨rfl, h2⟩
  · right
    rw [h1]
    exact ⟨h2, h3, h4⟩

/- ==================================================================
   Schedule independence of the shared-atomic write_min search.
   ================================================================== -/

theorem writeMinBlock_perm (p : Nat → Bool) {js js' : List Nat}
    (h : js.Perm js') (c : Nat) :
    writeMinBlock p c js = writeMinBlock p c js' := by
  refine h.foldl_eq' ?_ c
  intro x _ y _ z
  by_cases hx : p x <;> by_cases hy : p y <;> simp [hx, hy] <;> omega

theorem findLoopSched_eq (n : Nat) (p : Nat → Bool)
    (sched : Nat → Nat → List Nat)
    (hs : ∀ s e : Nat, (sched s e).Perm (List.range' s (e - s))) :
    ∀ fuel start bs,
      findLoopSched n p sched fuel start bs = findLoop n p fuel start bs := by
  intro fuel
  induction fuel with
  | zero => intro start bs; rfl
  | succ k ih =>
    intro start bs
    simp only [findLoopSched, findLoop]
    rw [writeMinBlock_perm p (hs start (min n (start + bs))) n, ih]

/- ==================================================================
   Monoid folding lemmas for the reduce and scan engines.
   ================================================================== -/

section MonoidLemmas

variable {α : Type} {f : α → α → α} {idv : α}
variable (ha : ∀ a b c : α, f (f a b) c = f a (f b c))
variable (hl : ∀ a : α, f idv a = a)
variable (hr : ∀ a : α, f a idv = a)

include ha hl hr

theorem foldl_from : ∀ (l : List α) (a : α),
    l.foldl f a = f a (l.foldl f idv) := by
  intro l
  induction l with
  | nil => intro a; exact (hr a).symm
  | cons x xs ih =>
    intro a
    have h1 : (x :: xs).foldl f a = xs.foldl f (f a x) := rfl
    have h2 : (x :: xs).foldl f idv = xs.foldl f x := by
      simp [List.foldl_cons, hl]
    rw [h1, h2, ih (f a x), ih x, ha]

theorem foldl_append_monoid : ∀ l₁ l₂ : List α,
    (l₁ ++ l₂).foldl f idv = f (l₁.foldl f idv) (l₂.foldl f idv) := by
  intro l₁ l₂
  rw [List.foldl_append, foldl_from ha hl hr l₂ (l₁.foldl f idv)]

theorem combineGo_eq_foldl : ∀ (fuel : Nat) (l : List α),
    combineGo f idv fuel l = l.foldl f idv := by
  intro fuel
  induction fuel with
  | zero =>
    intro l
    match l with
    | [] => rfl
    | [x] => simp [combineGo, hl]
    | x :: y :: rest => rfl
  | succ k ih =>
    intro l
    match l with
    | [] => rfl
    | [x] => simp [combineGo, hl]
    | x :: y :: rest =>
      have hstep : combineGo f idv (k + 1) (x :: y :: rest) =
          f (combineGo f idv k
              ((x :: y :: rest).take ((x :: y :: rest).length / 2)))
            (combineGo f idv k
              ((x :: y :: rest).drop ((x :: y :: rest).length / 2))) := rfl
      rw [hstep, ih, ih, ← foldl_append_monoid ha hl hr,
        List.take_append_drop]

omit ha hl hr in
theorem chunksGo_flatten (g : Nat) : ∀ (fuel : Nat) (l : List α),
    (chunksGo g fuel l).flatten = l := by
  intro fuel
  induction fuel with
  | zero =>
    intro l
    match l with
    | [] => rfl
    | x :: xs => simp [chunksGo]
  | succ k ih =>
    intro l
    match l with
    | [] => rfl
    | x :: xs =>
      have hstep : chunksGo g (k + 1) (x :: xs) =
          (x :: xs).take (max g 1) :: chunksGo g k ((x :: xs).drop (max g 1)) :=
        rfl
      rw [hstep]
      simp [ih]

theorem map_foldl_flatten : ∀ (bs : List (List α)) (a : α),
    (bs.map (fun b => b.foldl f idv)).foldl f a = bs.flatten.foldl f a := by
  intro bs
  induction bs with
  | nil => intro a; rfl
  | cons b bs ih =>
    intro a
    simp only [List.map_cons, List.foldl_cons, List.flatten_cons,
      List.foldl_append]
    rw [show f a (b.foldl f idv) = b.foldl f a from
      (foldl_from ha hl hr b a).symm]
    exact ih _

theorem reduceInternal_eq_foldl : ∀ (g : Nat) (l : List α),
    reduceInternal f idv g l = l.foldl f idv := by
  intro g l
  unfold reduceInternal combineTree
  rw [combineGo_eq_foldl ha hl hr, map_foldl_flatten ha hl hr]
  unfold chunksOf
  rw [chunksGo_flatten]

omit ha hl hr in
theorem seqScanExcl_snd : ∀ (l : List α) (a : α),
    (seqScanExcl f a l).2 = l.foldl f a := by
  intro l
  induction l with
  | nil => intro a; rfl
  | cons x xs ih => intro a; exact ih (f a x)

omit ha hl hr in
theorem seqScanExcl_fst_append : ∀ (l₁ l₂ : List α) (a : α),
    (seqScanExcl f a (l₁ ++ l₂)).1 =
      (seqScanExcl f a l₁).1 ++ (seqScanExcl f (l₁.foldl f a) l₂).1 := by
  intro l₁
  induction l₁ with
  | nil => intro l₂ a; rfl
  | cons x xs ih =>
    intro l₂ a
    have h1 : (seqScanExcl f a ((x :: xs) ++ l₂)).1 =
        a :: (seqScanExcl f (f a x) (xs ++ l₂)).1 := rfl
    have h2 : (seqScanExcl f a (x :: xs)).1 =
        a :: (seqScanExcl f (f a x) xs).1 := rfl
    rw [h1, h2, ih l₂ (f a x)]
    rfl

omit ha hl hr in
theorem seqScanExcl_fst_map : ∀ (l : List α) (a : α),
    (seqScanExcl f a l).1 =
      (List.range l.length).map (fun j => (l.take j).foldl f a) := by
  intro l
  induction l with
  | nil => intro a; rfl
  | cons x xs ih =>
    intro a
    have h1 : (seqScanExcl f a (x :: xs)).1 =
        a :: (seqScanExcl f (f a x) xs).1 := rfl
    rw [h1, ih (f a x), List.length_cons, List.range_succ_eq_map,
      List.map_cons, List.map_map]
    rfl

omit ha hl hr in
theorem seqScanIncl_append : ∀ (l₁ l₂ : List α) (a : α),
    seqScanIncl f a (l₁ ++ l₂) =
      seqScanIncl f a l₁ ++ seqScanIncl f (l₁.foldl f a) l₂ := by
  intro l₁
  induction l₁ with
  | nil => intro l₂ a; rfl
  | cons x xs ih =>
    intro l₂ a
    have h1 : seqScanIncl f a ((x :: xs) ++ l₂) =
        f a x :: seqScanIncl f (f a x) (xs ++ l₂) := rfl
    rw [h1, ih l₂ (f a x)]
    rfl

omit ha hl hr in
theorem seqScanIncl_map : ∀ (l : List α) (a : α),
    seqScanIncl f a l =
      (List.range l.length).map (fun j => (l.take (j + 1)).foldl f a) := by
  intro l
  induction l with
  | nil => intro a; rfl
  | cons x xs ih =>
    intro a
    have h1 : seqScanIncl f a (x :: xs) =
        f a x :: seqScanIncl f (f a x) xs := rfl
    rw [h1, ih (f a x), List.length_cons, List.range_succ_eq_map,
      List.map_cons, List.map_map]
    rfl

theorem blockedExcl_eq : ∀ (bs : List (List α)) (a : α),
    ((bs.zip (seqScanExcl f a (bs.map (fun b => b.foldl f idv))).1).map
      (fun q => (seqScanExcl f q.2 q.1).1)).flatten
    = (seqScanExcl f a bs.flatten).1 := by
  intro bs
  induction bs with
  | nil => intro a; rfl
  | cons b bs ih =>
    intro a
    have h1 : (seqScanExcl f a ((b :: bs).map (fun c => c.foldl f idv))).1 =
        a :: (seqScanExcl f (f a (b.foldl f idv))
              (bs.map (fun c => c.foldl f idv))).1 := rfl
    rw [h1]
    have h2 : f a (b.foldl f idv) = b.foldl f a :=
      (foldl_from ha hl hr b a).symm
    rw [h2, List.zip_cons_cons, List.map_cons, List.flatten_cons, ih,
      List.flatten_cons, seqScanExcl_fst_append]

theorem blockedIncl_eq : ∀ (bs : List (List α)) (a : α),
    ((bs.zip (seqScanExcl f a (bs.map (fun b => b.foldl f idv))).1).map
      (fun q => seqScanIncl f q.2 q.1)).flatten
    = seqScanIncl f a bs.flatten := by
  intro bs
  induction bs with
  | nil => intro a; rfl
  | cons b bs ih =>
    intro a
    have h1 : (seqScanExcl f a ((b :: bs).map (fun c => c.foldl f idv))).1 =
        a :: (seqScanExcl f (f a (b.foldl f idv))
              (bs.map (fun c => c.foldl f idv))).1 := rfl
    rw [h1]
    have h2 : f a (b.foldl f idv) = b.foldl f a :=
      (foldl_from ha hl hr b a).symm
    rw [h2, List.zip_cons_cons, List.map_cons, List.flatten_cons, ih,
      List.flatten_cons, seqScanIncl_append]

theorem scanBlocked_fst_eq : ∀ (g : Nat) (l : List α),
    (scanBlocked f idv g l).1 =
      (List.range l.length).map (fun i => (l.take i).foldl f idv) := by
  intro g l
  simp only [scanBlocked]
  have h := blockedExcl_eq ha hl hr (chunksOf g l) idv
  unfold chunksOf at h ⊢
  rw [chunksGo_flatten] at h
  rw [h, seqScanExcl_fst_map]

theorem scanBlocked_snd_eq : ∀ (g : Nat) (l : List α),
    (scanBlocked f idv g l).2 = l.foldl f idv := by
  intro g l
  simp only [scanBlocked]
  rw [seqScanExcl_snd, map_foldl_flatten ha hl hr]
  unfold chunksOf
  rw [chunksGo_flatten]

theorem scanInclBlocked_eq : ∀ (g : Nat) (l : List α),
    scanInclBlocked f idv g l =
      (List.range l.length).map (fun i => (l.take (i + 1)).foldl f idv) := by
  intro g l
  simp only [scanInclBlocked]
  have h := blockedIncl_eq ha hl hr (chunksOf g l) idv
  unfold chunksOf at h ⊢
  rw [chunksGo_flatten] at h
  rw [h, seqScanIncl_map]

end MonoidLemmas

/- ==================================================================
   Lemmas about the sorting engine.
   ================================================================== -/

section SortLemmas

variable {α : Type} {lt : α → α → Bool}

theorem sortEngine_perm (l : List α) : (sortEngine lt l).Perm l :=
  List.mergeSort_perm l _

theorem le_trans_of
    (hnt : ∀ a b c, lt a c = true → lt a b = true ∨ lt b c = true) :
    ∀ a b c : α, (!lt b a) = true → (!lt c b) = true → (!lt c a) = true := by
  intro a b c hab hbc
  simp only [Bool.not_eq_true'] at hab hbc ⊢
  by_contra h
  have hca : lt c a = true := by
    cases hh : lt c a
    · exact absurd hh h
    · rfl
  rcases hnt c b a hca with h1 | h2
  · rw [hbc] at h1; exact Bool.noConfusion h1
  · rw [hab] at h2; exact Bool.noConfusion h2

theorem le_total_of (hasym : ∀ a b, lt a b = true → lt b a = false) :
    ∀ a b : α, ((!lt b a) || (!lt a b)) = true := by
  intro a b
  cases hab : lt a b
  · simp [hab]
  · simp [hasym a b hab]

theorem sortEngine_sorted
    (hasym : ∀ a b, lt a b = true → lt b a = false)
    (hnt : ∀ a b c, lt a c = true → lt a b = true ∨ lt b c = true)
    (l : List α) :
    (sortEngine lt l).Pairwise (fun a b => lt b a = false) := by
  have h : (List.mergeSort l (fun a b => !lt b a)).Pairwise
      (fun a b => (!lt b a) = true) :=
    List.sorted_mergeSort (le_trans_of hnt) (le_total_of hasym) l
  exact h.imp (fun hab => by simpa using hab)

theorem sortEngine_stable
    (hasym : ∀ a b, lt a b = true → lt b a = false)
    (hnt : ∀ a b c, lt a c = true → lt a b = true ∨ lt b c = true)
    (l : List α) (v : α) :
    (sortEngine lt l).filter (fun x => !lt x v && !lt v x) =
      l.filter (fun x => !lt x v && !lt v x) := by
  have hc : (l.filter (fun x => !lt x v && !lt v x)).Pairwise
      (fun a b => (!lt b a) = true) := by
    apply List.pairwise_of_forall_mem_list
    intro a hma b hmb
    have hpa := (List.mem_filter.1 hma).2
    have hpb := (List.mem_filter.1 hmb).2
    simp only [Bool.and_eq_true, Bool.not_eq_true'] at hpa hpb
    simp only [Bool.not_eq_true']
    by_contra h
    have hba : lt b a = true := by
      cases hh : lt b a
      · exact absurd hh h
      · rfl
    rcases hnt b v a hba with h1 | h2
    · rw [hpb.1] at h1; exact Bool.noConfusion h1
    · rw [hpa.2] at h2; exact Bool.noConfusion h2
  have hsub := List.sublist_mergeSort (le_trans_of hnt) (le_total_of hasym)
    hc (List.filter_sublist l)
  have h2 : List.Sublist (l.filter (fun x => !lt x v && !lt v x))
      ((sortEngine lt l).filter (fun x => !lt x v && !lt v x)) := by
    have h3 := hsub.filter (fun x => !lt x v && !lt v x)
    have h4 : (l.filter (fun x => !lt x v && !lt v x)).filter
        (fun x => !lt x v && !lt v x) =
        l.filter (fun x => !lt x v && !lt v x) :=
      List.filter_eq_self.2 (fun a ha => (List.mem_filter.1 ha).2)
    rwa [h4] at h3
  have hlen : ((sortEngine lt l).filter
      (fun x => !lt x v && !lt v x)).length =
      (l.filter (fun x => !lt x v && !lt v x)).length := by
    rw [← List.countP_eq_length_filter, ← List.countP_eq_length_filter]
    exact (sortEngine_perm l).countP_eq _
  exact (h2.eq_of_length hlen.symm).symm

end SortLemmas

/- ==================================================================
   Lemmas about counting.
   ================================================================== -/

theorem foldl_add_indicator (q : Nat → Bool) :
    ∀ (js : List Nat) (a : Nat),
      (js.map (fun i => if q i then 1 else 0)).foldl Nat.add a =
        a + js.countP q := by
  intro js
  induction js with
  | nil => intro a; simp
  | cons j js ih =>
    intro a
    by_cases h : q j <;>
      simp only [List.map_cons, List.foldl_cons, List.countP_cons, h] <;>
      rw [ih] <;> simp <;> omega

theorem range_countP_index (r : List α) (p : α → Bool) :
    (List.range r.length).countP (fun i => (r[i]?.map p).getD false) =
      r.countP p := by
  induction r with
  | nil => rfl
  | cons x xs ih =>
    rw [List.length_cons, List.range_succ_eq_map, List.countP_cons,
      List.countP_map]
    have h0 : ((((x :: xs)[0]?).map p).getD false) = p x := by simp
    have hcomp :
        ((fun i => (((x :: xs)[i]?).map p).getD false) ∘ Nat.succ) =
          (fun i => ((xs[i]?).map p).getD false) := by
      funext i
      simp [Function.comp]
    rw [hcomp, ih, h0, List.countP_cons]

theorem count_if_eq_countP (r : List α) (p : α → Bool) :
    count_if r p = r.countP p := by
  unfold count_if count_if_index reduce
  beta_reduce
  have ha : ∀ a b c : Nat, Nat.add (Nat.add a b) c = Nat.add a (Nat.add b c) :=
    fun a b c => Nat.add_assoc a b c
  have hl : ∀ a : Nat, Nat.add 0 a = a := Nat.zero_add
  have hr : ∀ a : Nat, Nat.add a 0 = a := Nat.add_zero
  rw [reduceInternal_eq_foldl ha hl hr, foldl_add_indicator]
  rw [Nat.zero_add, range_countP_index]

/- ==================================================================
   Lemmas about pattern search.
   ================================================================== -/

theorem matchAt_iff [Inhabited α] [BEq α] [LawfulBEq α]
    (t pat : List α) (i : Nat) :
    matchAt t pat (fun a b => a == b) i = true ↔ OccursAt t pat i := by
  unfold matchAt OccursAt
  rw [Bool.and_eq_true, decide_eq_true_eq, List.all_eq_true]
  constructor
  · rintro ⟨hb, hall⟩
    refine ⟨hb, ?_⟩
    intro j hj
    have hthis := hall j (List.mem_range.2 hj)
    have hjt : i + j < t.length := by omega
    have h1 : t.getD (i + j) default = t[i + j] := by
      rw [List.getD_eq_getElem?_getD, List.getElem?_eq_getElem hjt]
      rfl
    have h2 : pat.getD j default = pat[j] := by
      rw [List.getD_eq_getElem?_getD, List.getElem?_eq_getElem hj]
      rfl
    rw [h1, h2] at hthis
    rw [List.getElem?_eq_getElem hjt, List.getElem?_eq_getElem hj]
    exact congrArg some (eq_of_beq hthis)
  · rintro ⟨hb, hall⟩
    refine ⟨hb, ?_⟩
    intro j hjmem
    have hj := List.mem_range.1 hjmem
    have hjt : i + j < t.length := by omega
    have hthis := hall j hj
    rw [List.getElem?_eq_getElem hjt, List.getElem?_eq_getElem hj] at hthis
    have heq : t[i + j] = pat[j] := Option.some.inj hthis
    have h1 : t.getD (i + j) default = t[i + j] := by
      rw [List.getD_eq_getElem?_getD, List.getElem?_eq_getElem hjt]
      rfl
    have h2 : pat.getD j default = pat[j] := by
      rw [List.getD_eq_getElem?_getD, List.getElem?_eq_getElem hj]
      rfl
    rw [h1, h2, heq]
    exact beq_self_eq_true _

/- ==================================================================
   Lemmas about lexicographic comparison.
   ================================================================== -/

theorem find_if_index_zero (p : Nat → Bool) : find_if_index 0 p 1000 = 0 := by
  rw [find_if_index_eq 0 p 1000 (by omega)]
  rfl

theorem lexc_nil_left [Inhabited α] (lt : α → α → Bool) (b : List α) :
    lexicographical_compare lt [] b = decide (0 < b.length) := by
  simp only [lexicographical_compare, List.length_nil, Nat.zero_min,
    find_if_index_zero]
  simp

theorem lexc_nil_right [Inhabited α] (lt : α → α → Bool) (x : α)
    (xs : List α) :
    lexicographical_compare lt (x :: xs) [] = false := by
  simp only [lexicographical_compare, List.length_nil, Nat.min_zero,
    find_if_index_zero]
  simp

theorem lexc_cons [Inhabited α] (lt : α → α → Bool) (x y : α)
    (xs ys : List α) :
    lexicographical_compare lt (x :: xs) (y :: ys) =
      if (lt x y || lt y x) = true then lt x y
      else lexicographical_compare lt xs ys := by
  simp only [lexicographical_compare, List.length_cons]
  have hm : min (xs.length + 1) (ys.length + 1) =
      min xs.length ys.length + 1 := by omega
  rw [hm, find_if_index_eq _ _ 1000 (by omega),
    find_if_index_eq _ _ 1000 (by omega),
    List.range_succ_eq_map, List.find?_cons]
  simp only [List.getD_cons_zero]
  by_cases h0 : (lt x y || lt y x) = true
  · rw [h0]
    simp
  · rw [Bool.not_eq_true] at h0
    rw [h0]
    simp only [List.find?_map]
    have hcomp : ((fun i =>
        lt ((x :: xs).getD i default) ((y :: ys).getD i default) ||
        lt ((y :: ys).getD i default) ((x :: xs).getD i default)) ∘
          Nat.succ) =
        (fun i => lt (xs.getD i default) (ys.getD i default) ||
          lt (ys.getD i default) (xs.getD i default)) := by
      funext i
      simp [Function.comp, List.getD_cons_succ]
    rw [hcomp]
    cases hfind : (List.range (min xs.length ys.length)).find?
        (fun i => lt (xs.getD i default) (ys.getD i default) ||
          lt (ys.getD i default) (xs.getD i default)) with
    | none => simp [Nat.succ_lt_succ_iff]
    | some j =>
      have hjm : j < min xs.length ys.length :=
        List.mem_range.1 (List.mem_of_find?_eq_some hfind)
      simp [List.getD_cons_succ, hjm, Nat.succ_lt_succ_iff]

theorem lexc_eq_lexLt [Inhabited α] (lt : α → α → Bool) :
    ∀ a b : List α, lexicographical_compare lt a b = lexLt lt a b := by
  intro a
  induction a with
  | nil =>
    intro b
    cases b with
    | nil => rw [lexc_nil_left]; rfl
    | cons y ys => rw [lexc_nil_left]; simp [lexLt]
  | cons x xs ih =>
    intro b
    cases b with
    | nil => rw [lexc_nil_right]; rfl
    | cons y ys =>
      rw [lexc_cons, ih ys]
      cases hxy : lt x y <;> cases hyx : lt y x <;> simp [lexLt, hxy, hyx]

theorem seqLess_eq_lexLt (beq lt : α → α → Bool)
    (hbeq : ∀ x y, beq x y = (!lt x y && !lt y x)) :
    ∀ a b : List α, seqLess beq lt a b = lexLt lt a b := by
  intro a
  induction a with
  | nil =>
    intro b
    cases b with
    | nil => rfl
    | cons y ys => simp [seqLess, seqLessCore, lexLt]
  | cons x xs ih =>
    intro b
    cases b with
    | nil => simp [seqLess, seqLessCore, lexLt]
    | cons y ys =>
      have hcore : seqLessCore beq lt (x :: xs) (y :: ys) =
          if beq x y then seqLessCore beq lt xs ys else some (lt x y) := rfl
      rw [hbeq x y] at hcore
      cases hxy : lt x y <;> cases hyx : lt y x
      · rw [hxy, hyx] at hcore
        have ih' := ih ys
        simp only [lexLt, hxy, hyx, Bool.false_or, Bool.not_false,
          Bool.true_and]
        rw [← ih']
        simp only [seqLess, hcore, Bool.not_false, Bool.and_self, if_pos]
        cases hc : seqLessCore beq lt xs ys with
        | none => simp [List.length_cons]
        | some v => rfl
      · rw [hxy, hyx] at hcore
        simp only [seqLess, hcore]
        simp [lexLt, hxy, hyx]
      · rw [hxy, hyx] at hcore
        simp only [seqLess, hcore]
        simp [lexLt, hxy, hyx]
      · rw [hxy, hyx] at hcore
        simp only [seqLess, hcore]
        simp [lexLt, hxy, hyx]

/- ==================================================================
   Claim theorems.
   ================================================================== -/

/-- C1: for every sequence and monoid (associative operation with a
two-sided identity), reduce equals the sequential left fold of the
sequence starting from the identity; in particular reduce of an empty
range returns the identity. -/
theorem c1_reduce_eq_foldl {α : Type} (f : α → α → α) (idv : α)
    (ha : ∀ a b c : α, f (f a b) c = f a (f b c))
    (hl : ∀ a : α, f idv a = a) (hr : ∀ a : α, f a idv = a) :
    (∀ l : List α, reduce f idv l = l.foldl f idv) ∧
    reduce f idv ([] : List α) = idv :=
  ⟨fun l => reduceInternal_eq_foldl ha hl hr 1000 l,
   reduceInternal_eq_foldl ha hl hr 1000 []⟩

/-- Witness for C1: the concrete instance reduce([1,2,3,4,5], (+,0)) of
the spec together with the empty range. -/
theorem c1_reduce_eq_foldl_witness :
    reduce Nat.add 0 [1, 2, 3, 4, 5] = 15 ∧
    reduce Nat.add 0 ([] : List Nat) = 0 := by
  have h := c1_reduce_eq_foldl Nat.add 0 (fun a b c => Nat.add_assoc a b c)
    Nat.zero_add Nat.add_zero
  exact ⟨(h.1 [1, 2, 3, 4, 5]).trans (by decide), h.2⟩

/-- C2: for every monoid and every block granularity, scan returns a
same-length output whose entry i is the fold of the first i elements,
together with the total fold, and scan_inclusive returns at entry i the
fold of the first i + 1 elements. -/
theorem c2_scan_prefix_folds {α : Type} (f : α → α → α) (idv : α)
    (ha : ∀ a b c : α, f (f a b) c = f a (f b c))
    (hl : ∀ a : α, f idv a = a) (hr : ∀ a : α, f a idv = a) :
    ∀ (g : Nat) (l : List α),
      (scanBlocked f idv g l).1 =
        (List.range l.length).map (fun i => (l.take i).foldl f idv) ∧
      (scanBlocked f idv g l).1.length = l.length ∧
      (scanBlocked f idv g l).2 = l.foldl f idv ∧
      scanInclBlocked f idv g l =
        (List.range l.length).map (fun i => (l.take (i + 1)).foldl f idv) := by
  intro g l
  refine ⟨scanBlocked_fst_eq ha hl hr g l, ?_,
    scanBlocked_snd_eq ha hl hr g l, scanInclBlocked_eq ha hl hr g l⟩
  rw [scanBlocked_fst_eq ha hl hr g l]
  simp

/-- Witness for C2: scan([1,2,3,4], (+,0)) = ([0,1,3,6], 10) and the
inclusive scan [1,3,6,10]. -/
theorem c2_scan_prefix_folds_witness :
    (scan Nat.add 0 [1, 2, 3, 4]).1 = [0, 1, 3, 6] ∧
    (scan Nat.add 0 [1, 2, 3, 4]).2 = 10 ∧
    scan_inclusive Nat.add 0 [1, 2, 3, 4] = [1, 3, 6, 10] := by
  have h := c2_scan_prefix_folds Nat.add 0 (fun a b c => Nat.add_assoc a b c)
    Nat.zero_add Nat.add_zero 1000 [1, 2, 3, 4]
  exact ⟨h.1.trans (by decide), h.2.2.1.trans (by decide),
    h.2.2.2.trans (by decide)⟩

/-- C3: for a strict-weak-order comparator (asymmetric and with the
splitting property of negative transitivity), sort returns a
permutation of the input that is non-decreasing under the comparator,
and stable_sort additionally keeps comparator-equal elements in their
original relative order: for every value v, the subsequence of elements
incomparable with v is exactly the same list as in the input. -/
theorem c3_sort_sorted_permutation_stable {α : Type} (lt : α → α → Bool)
    (hasym : ∀ a b, lt a b = true → lt b a = false)
    (hnt : ∀ a b c, lt a c = true → lt a b = true ∨ lt b c = true) :
    ∀ l : List α,
      (sort lt l).Perm l ∧
      (sort lt l).Pairwise (fun a b => lt b a = false) ∧
      (stable_sort lt l).Perm l ∧
      (stable_sort lt l).Pairwise (fun a b => lt b a = false) ∧
      ∀ v : α, (stable_sort lt l).filter (fun x => !lt x v && !lt v x) =
        l.filter (fun x => !lt x v && !lt v x) := by
  intro l
  exact ⟨sortEngine_perm l, sortEngine_sorted hasym hnt l, sortEngine_perm l,
    sortEngine_sorted hasym hnt l, fun v => sortEngine_stable hasym hnt l v⟩

/-- Witness for C3 at a concrete list over Fin 3 with the strict order,
including the stability clause at the duplicated value 1. -/
theorem c3_sort_witness :
    (sort (fun a b : Fin 3 => decide (a < b)) [2, 1, 1, 0]).Perm
      [2, 1, 1, 0] ∧
    (stable_sort (fun a b : Fin 3 => decide (a < b)) [2, 1, 1, 0]).filter
        (fun x => !decide (x < (1 : Fin 3)) && !decide ((1 : Fin 3) < x)) =
      [2, 1, 1, 0].filter
        (fun x => !decide (x < (1 : Fin 3)) && !decide ((1 : Fin 3) < x)) := by
  have h := c3_sort_sorted_permutation_stable
    (fun a b : Fin 3 => decide (a < b)) (by decide) (by decide) [2, 1, 1, 0]
  exact ⟨h.1, h.2.2.2.2 1⟩

/-- C4 counterexample: in primitives.h the stable_sort entry point
calls internal::sample_sort (with the stable flag set), so the claim
that it does not go through the sample-sort engine is false. -/
theorem c4_stable_sort_dispatch_counterexample :
    stable_sort_dispatch.engine = SortEngine.sampleSortEngine ∧
    stable_sort_dispatch.engine ≠ SortEngine.mergeSortEngine :=
  ⟨rfl, by decide⟩

/-- C4 amended: stable_sort routes to internal::sample_sort with the
stable flag true; it is the in-place variant stable_sort_inplace that
routes to the merge-sort engine, while sort routes to sample sort with
the flag false. -/
theorem c4_stable_sort_dispatch_amended :
    stable_sort_dispatch =
      SortDispatch.mk SortEngine.sampleSortEngine true ∧
    stable_sort_inplace_dispatch =
      SortDispatch.mk SortEngine.mergeSortEngine true ∧
    sort_dispatch = SortDispatch.mk SortEngine.sampleSortEngine false :=
  ⟨rfl, rfl, rfl⟩

/-- C5: for every positive granularity, internal::find_if_index (whose
first min(granularity, n) indices are scanned sequentially before the
parallel doubling blocks) returns the least index of [0, n) satisfying
p, and the sentinel n when no index does. -/
theorem c5_find_if_index_least (n : Nat) (p : Nat → Bool) (g : Nat)
    (hg : 0 < g) :
    (find_if_index n p g = n ∧ ∀ i < n, p i = false) ∨
    (find_if_index n p g < n ∧ p (find_if_index n p g) = true ∧
      ∀ i < find_if_index n p g, p i = false) :=
  find_if_index_first n p g hg

/-- Witness for C5 at n = 9 with the predicate 4 <= i and the default
granularity 1000. -/
theorem c5_find_if_index_least_witness :
    (0 : Nat) < 1000 ∧
    ((find_if_index 9 (fun i => decide (4 ≤ i)) 1000 = 9 ∧
        ∀ i < 9, decide (4 ≤ i) = false) ∨
      (find_if_index 9 (fun i => decide (4 ≤ i)) 1000 < 9 ∧
        decide (4 ≤ find_if_index 9 (fun i => decide (4 ≤ i)) 1000) = true ∧
        ∀ i < find_if_index 9 (fun i => decide (4 ≤ i)) 1000,
          decide (4 ≤ i) = false)) :=
  ⟨by decide, c5_find_if_index_least 9 (fun i => decide (4 ≤ i)) 1000
    (by decide)⟩

/-- C6: evaluating parlay::adjacent_find on the empty range.  The
argument size(r) - 1 wraps around to 2^64 - 1 (size_t underflow), so
find_if_index starts its sequential prefix and the very first predicate
evaluation reads the elements at positions 0 and 1 of the empty range,
out of bounds (embedded as the result none) - the call does not return
the end iterator without touching elements, contrary to the claim. -/
theorem c6_adjacent_find_empty_out_of_bounds :
    adjacent_find ([] : List Nat) (fun a b => a == b) = none ∧
    sizeTSubOne 0 = 2 ^ 64 - 1 := by
  exact ⟨by decide, by decide⟩

/-- C7: for character ranges compared by equality, search returns the
start index of the first occurrence of the pattern in the text and the
text length when the pattern occurs nowhere; concretely, in
abracadabra the pattern cad is first found at index 4 and xyz is not
found (sentinel 11). -/
theorem c7_search_first_occurrence :
    (∀ t pat : List Char,
      (OccursAt t pat (search t pat (fun a b => a == b)) ∧
        ∀ i < search t pat (fun a b => a == b), ¬ OccursAt t pat i) ∨
      (search t pat (fun a b => a == b) = t.length ∧
        ∀ i, ¬ OccursAt t pat i)) ∧
    search "abracadabra".toList "cad".toList (fun a b => a == b) = 4 ∧
    search "abracadabra".toList "xyz".toList (fun a b => a == b) = 11 := by
  refine ⟨?_, by decide, by decide⟩
  intro t pat
  unfold search
  rcases find_if_index_first t.length (matchAt t pat (fun a b => a == b))
      1000 (by omega) with ⟨h1, h2⟩ | ⟨h1, h2, h3⟩
  · by_cases hm : pat.length = 0
    · have hn : t.length = 0 := by
        by_contra hn
        have hev := h2 0 (by omega)
        have htrue : matchAt t pat (fun a b => a == b) 0 = true := by
          unfold matchAt
          simp [hm]
        rw [hev] at htrue
        exact Bool.noConfusion htrue
      left
      constructor
      · rw [h1]
        exact ⟨by omega, fun j hj => by omega⟩
      · intro i hi
        rw [h1] at hi
        omega
    · right
      refine ⟨h1, ?_⟩
      intro i hOcc
      have hin : i < t.length := by
        rcases hOcc with ⟨hb, _⟩
        omega
      have hfalse := h2 i hin
      have htrue := (matchAt_iff t pat i).2 hOcc
      rw [hfalse] at htrue
      exact Bool.noConfusion htrue
  · left
    refine ⟨(matchAt_iff t pat _).1 h2, ?_⟩
    intro i hi hOcc
    have hfalse := h3 i hi
    have htrue := (matchAt_iff t pat i).2 hOcc
    rw [hfalse] at htrue
    exact Bool.noConfusion htrue

/-- C8: the value computed by the find machinery is independent of the
worker schedule: under every per-block commit order of the shared
atomic write_min (any permutation of each parallel block), the result
equals that of the one-worker sequential ascending execution. -/
theorem c8_find_schedule_independent (n : Nat) (p : Nat → Bool) (g : Nat)
    (sched : Nat → Nat → List Nat)
    (hs : ∀ s e : Nat, (sched s e).Perm (List.range' s (e - s))) :
    findIfIndexSched n p g sched = find_if_index n p g := by
  unfold findIfIndexSched find_if_index
  cases hfind : (List.range (min g n)).find? p with
  | some i => rfl
  | none =>
    by_cases hmn : min g n = n
    · simp [hmn]
    · simp [hmn, findLoopSched_eq n p sched hs]

/-- Witness for C8: each block committing its writes in reverse order
yields the same value as the sequential order. -/
theorem c8_find_schedule_independent_witness :
    findIfIndexSched 5 (fun i => decide (i = 3)) 2
        (fun s e => (List.range' s (e - s)).reverse) =
      find_if_index 5 (fun i => decide (i = 3)) 2 :=
  c8_find_schedule_independent 5 (fun i => decide (i = 3)) 2
    (fun s e => (List.range' s (e - s)).reverse)
    (fun s e => (List.range' s (e - s)).reverse_perm)

/-- C9: evaluating parlay::any_of, which the source computes as
count_if(r, p) > 1, on a range with exactly one satisfying element: it
returns false although an element satisfies p (and none_of also
returns false), while count_if correctly counts the satisfying
elements of the range. -/
theorem c9_any_of_single_match :
    any_of [(5 : Nat)] (fun x => x == 5) = false ∧
    count_if [(5 : Nat)] (fun x => x == 5) = 1 ∧
    none_of [(5 : Nat)] (fun x => x == 5) = false ∧
    ∀ (r : List Nat) (q : Nat → Bool), count_if r q = r.countP q :=
  ⟨by decide, by decide, by decide, fun r q => count_if_eq_countP r q⟩

/-- C10: when element equality agrees with incomparability under the
element order, the two code paths of operator< on sequences (the
parallel lexicographical_compare branch taken above length 1000 and
the sequential element loop) compute the same function, and operator<
is the strict lexicographic order. -/
theorem c10_sequence_less_lexicographic {α : Type} [Inhabited α]
    (beq lt : α → α → Bool)
    (hbeq : ∀ x y, beq x y = (!lt x y && !lt y x)) :
    ∀ a b : List α,
      lexicographical_compare lt a b = seqLess beq lt a b ∧
      sequenceLess beq lt a b = lexLt lt a b := by
  intro a b
  have h1 := lexc_eq_lexLt lt a b
  have h2 := seqLess_eq_lexLt beq lt hbeq a b
  refine ⟨h1.trans h2.symm, ?_⟩
  unfold sequenceLess
  by_cases hlen : a.length > 1000
  · rw [if_pos hlen]
    exact h1
  · rw [if_neg hlen]
    exact h2

/-- Witness for C10 over Fin 4 with its equality and strict order, at
the lists [1,2,3] and [1,3]. -/
theorem c10_sequence_less_lexicographic_witness :
    (∀ x y : Fin 4, (x == y) = (!decide (x < y) && !decide (y < x))) ∧
    lexicographical_compare (fun a b : Fin 4 => decide (a < b))
        [1, 2, 3] [1, 3] =
      seqLess (fun a b : Fin 4 => a == b)
        (fun a b : Fin 4 => decide (a < b)) [1, 2, 3] [1, 3] ∧
    sequenceLess (fun a b : Fin 4 => a == b)
        (fun a b : Fin 4 => decide (a < b)) [1, 2, 3] [1, 3] =
      lexLt (fun a b : Fin 4 => decide (a < b)) [1, 2, 3] [1, 3] := by
  have h := c10_sequence_less_lexicographic (fun a b : Fin 4 => a == b)
    (fun a b : Fin 4 => decide (a < b)) (by decide) [1, 2, 3] [1, 3]
  exact ⟨by decide, h.1, h.2⟩

end Parlay
